import Mathlib

/-!
Verification of the teleprompter playback engine.

The embedding below is a shallow model of the playback engine found in
`src/pages/Teleprompter.tsx`, the `useTeleprompter` hook and the
`TeleprompterControls` component:

* Scripts are modelled as `List Char`; JavaScript numbers as rationals (`ℚ`).
* The React state of the hook and the page component is collected in one
  record `PlayState` (`isPlaying`, `speed`, `scrollPosition` from the hook,
  `currentWordIndex` from the page). The token list `words` is passed
  separately where needed, as only its length matters to the clock.
* Each state setter of the source becomes a pure state-transition function:
  `togglePlay`, `updateSpeed`, `reset`, `handleExit`, `handleWordClick`,
  `updateScrollPosition`, and `tick` (the body of the `setInterval` updater).
* `Step`/`Reachable` describe the transitions that the rendered page can
  actually fire: a tick only occurs while `isPlaying` holds (the interval is
  created inside `if (isPlaying)` and torn down otherwise), and a word click
  only supplies the index of a rendered word, hence an index `< tokenCount`.
-/

namespace Teleprompter

/-- Character class of the JavaScript regular-expression escape `\s`
(whitespace), used by `script.split(/\s+/)` in the source. -/
def jsWhitespace (c : Char) : Bool :=
  c == ' ' || c == '\t' || c == '\n' || c == '\r' || c == '\x0B' || c == '\x0C' ||
  c.toNat == 0xA0 || c.toNat == 0x1680 ||
  (decide (0x2000 ≤ c.toNat) && decide (c.toNat ≤ 0x200A)) ||
  c.toNat == 0x2028 || c.toNat == 0x2029 || c.toNat == 0x202F || c.toNat == 0x205F ||
  c.toNat == 0x3000 || c.toNat == 0xFEFF

/-- Helper for `splitRuns`: whether a list starts with a separator character. -/
def headIsSep (p : Char → Bool) : List Char → Bool
  | [] => false
  | c :: _ => p c

/-- Helper for `splitRuns`: push a character onto the first fragment. -/
def consHead (c : Char) : List (List Char) → List (List Char)
  | [] => [[c]]
  | f :: fs => (c :: f) :: fs

/-- Model of JavaScript `string.split(/p+/)`: split on maximal runs of
characters satisfying `p`, keeping the (possibly empty) fragments between
runs, exactly as the regex split does (a leading or trailing run yields an
empty fragment; adjacent separator characters belong to one run). -/
def splitRuns (p : Char → Bool) : List Char → List (List Char)
  | [] => [[]]
  | c :: cs =>
    if p c then
      if headIsSep p cs then splitRuns p cs else [] :: splitRuns p cs
    else consHead c (splitRuns p cs)

/-- Model of `script.split(/\s+/).filter(word => word.length > 0)` from
`Teleprompter.tsx` (used both in the script-loading effect and in
`handleEditToggle`). -/
def tokenize (script : List Char) : List (List Char) :=
  (splitRuns jsWhitespace script).filter (fun word => 0 < word.length)

/-- Helper for `normalizeWs`: copy characters left to right, collapsing every
run of whitespace into a single `' '`; the flag records whether a whitespace
run is pending (so a trailing run is dropped and an interior run yields one
space). -/
def normAux : Bool → List Char → List Char
  | _, [] => []
  | pending, c :: cs =>
    if jsWhitespace c then normAux true cs
    else if pending then ' ' :: c :: normAux false cs
    else c :: normAux false cs

/-- Whitespace-normalized form of a script, as the spec uses the phrase:
leading and trailing whitespace removed, and every interior run of whitespace
collapsed to a single space. This definition is independent of `tokenize`;
the two are related by the theorem for claim C6. -/
def normalizeWs (s : List Char) : List Char :=
  normAux false (s.dropWhile jsWhitespace)

/-- Model of the script guard `if (!script) { navigate('/'); return; }` in
`Teleprompter.tsx`: a JavaScript string is falsy exactly when it is empty, so
the redirect fires exactly on the empty script. -/
def scriptGuardRedirects (script : List Char) : Bool :=
  script.isEmpty

/-- Combined React state of `useTeleprompter` (`isPlaying`, `speed`,
`scrollPosition`) and the Teleprompter page (`currentWordIndex`). -/
structure PlayState where
  isPlaying : Bool
  speed : ℚ
  currentWordIndex : Int
  scrollPosition : ℚ
  deriving DecidableEq, Repr

/-- Model of `togglePlay`: `setIsPlaying(prev => !prev)`. -/
def togglePlay (s : PlayState) : PlayState :=
  { s with isPlaying := !s.isPlaying }

/-- Model of `updateSpeed`: `setSpeed(newSpeed)`. -/
def updateSpeed (newSpeed : ℚ) (s : PlayState) : PlayState :=
  { s with speed := newSpeed }

/-- Model of the hook's `reset`: `setIsPlaying(false); setScrollPosition(0);
containerRef.current.scrollTop = 0`. -/
def reset (s : PlayState) : PlayState :=
  { s with isPlaying := false, scrollPosition := 0 }

/-- Model of `handleExit`, the page-level realization of the spec's
`reset()` operation: `reset(); setCurrentWordIndex(0); navigate('/')`. -/
def handleExit (s : PlayState) : PlayState :=
  { reset s with currentWordIndex := 0 }

/-- Model of `handleWordClick` (the spec's `jumpTo`):
`setCurrentWordIndex(index)`, with no clamping in the source. -/
def handleWordClick (index : Int) (s : PlayState) : PlayState :=
  { s with currentWordIndex := index }

/-- Tokens-per-minute baseline: the literal `200` in
`60000 / (speed * 200)`. -/
def BASE_RATE : ℚ := 200

/-- Cadence of the playback interval in milliseconds:
`60000 / (speed * 200)` from the `setInterval` call. -/
def tickInterval (speed : ℚ) : ℚ :=
  60000 / (speed * BASE_RATE)

/-- Model of one firing of the playback interval, the
`setCurrentWordIndex(prev => ...)` updater: at or beyond the last index the
interval is cleared and `togglePlay()` is called with the index unchanged;
otherwise the index advances by one. -/
def tick (tokenCount : Nat) (s : PlayState) : PlayState :=
  if s.currentWordIndex ≥ (tokenCount : Int) - 1 then togglePlay s
  else { s with currentWordIndex := s.currentWordIndex + 1 }

/-- Model of the scroll-target computation in `updateScrollPosition`:
`targetScroll = wordPosition - (containerHeight / 2) + (wordHeight / 2)`. -/
def computeOffset (containerHeight wordPosition wordHeight : ℚ) : ℚ :=
  wordPosition - containerHeight / 2 + wordHeight / 2

/-- Model of `updateScrollPosition`'s state effect:
`setScrollPosition(targetScroll)` for the geometry of the active word. -/
def updateScrollPosition (containerHeight wordPosition wordHeight : ℚ)
    (s : PlayState) : PlayState :=
  { s with scrollPosition := computeOffset containerHeight wordPosition wordHeight }

/-- Model of the magnetic-attraction branch of `handleMouseMove` in
`TeleprompterControls`. `distanceX`/`distanceY` are the pointer's offsets
from the play button's center and `distance` is their Euclidean norm,
computed by the caller (`Math.sqrt` leaves the rationals, so the norm is
passed explicitly; theorems tie it to `distanceX`/`distanceY` by the
hypothesis `distance * distance = distanceX² + distanceY²`). The result is
`(moveX, moveY, scale)` of the applied CSS transform. -/
def magnetTransform (distanceX distanceY distance : ℚ) : ℚ × ℚ × ℚ :=
  if distance < 150 then
    (distanceX * ((150 - distance) / 150) * (3 / 10),
      distanceY * ((150 - distance) / 150) * (3 / 10),
      1 + ((150 - distance) / 150) * (1 / 10))
  else (0, 0, 1)

/-- Initial state: `useTeleprompter(2)` starts with `isPlaying = false`,
`speed = 2`, `scrollPosition = 0`, and the page starts with
`currentWordIndex = 0`. -/
def initState : PlayState :=
  { isPlaying := false, speed := 2, currentWordIndex := 0, scrollPosition := 0 }

/-- Transitions the rendered page can fire on a fixed token sequence of
length `tokenCount`: a tick (only while playing — the interval exists only
inside `if (isPlaying)`), the three control operations, a scroll-target
update, and a click on a rendered word (whose index is a valid position in
`words`). -/
inductive Step (tokenCount : Nat) : PlayState → PlayState → Prop
  | tickStep (s : PlayState) (h : s.isPlaying = true) :
      Step tokenCount s (tick tokenCount s)
  | toggleStep (s : PlayState) : Step tokenCount s (togglePlay s)
  | speedStep (s : PlayState) (v : ℚ) : Step tokenCount s (updateSpeed v s)
  | exitStep (s : PlayState) : Step tokenCount s (handleExit s)
  | scrollStep (s : PlayState) (ch tp th : ℚ) :
      Step tokenCount s (updateScrollPosition ch tp th s)
  | clickStep (s : PlayState) (i : Nat) (h : i < tokenCount) :
      Step tokenCount s (handleWordClick i s)

/-- States reachable from the initial state through page transitions. -/
inductive Reachable (tokenCount : Nat) : PlayState → Prop
  | start : Reachable tokenCount initState
  | step {s t : PlayState} :
      Reachable tokenCount s → Step tokenCount s t → Reachable tokenCount t

/-- C2: for every speed in `[0.1, 10]` the tick interval
`60000 / (speed * BASE_RATE)` with `BASE_RATE = 200` is strictly positive,
strictly decreasing in the speed, and equals exactly 150 ms at speed 2. -/
theorem tickInterval_spec :
    (∀ speed : ℚ, 1 / 10 ≤ speed → speed ≤ 10 → 0 < tickInterval speed) ∧
    (∀ s1 s2 : ℚ, 1 / 10 ≤ s1 → s1 < s2 → s2 ≤ 10 →
      tickInterval s2 < tickInterval s1) ∧
    tickInterval 2 = 150 := by
  refine ⟨?_, ?_, by norm_num [tickInterval, BASE_RATE]⟩
  · intro speed h1 _
    have hs : 0 < speed := lt_of_lt_of_le (by norm_num) h1
    unfold tickInterval BASE_RATE
    positivity
  · intro s1 s2 h1 hlt _
    have h1p : 0 < s1 := lt_of_lt_of_le (by norm_num) h1
    have h2p : 0 < s2 := lt_trans h1p hlt
    unfold tickInterval BASE_RATE
    apply div_lt_div_of_pos_left (by norm_num) (by positivity)
    nlinarith

/-- Witness for C2 at concrete speeds. -/
theorem tickInterval_spec_witness :
    0 < tickInterval 2 ∧ tickInterval 10 < tickInterval 2 ∧ tickInterval 2 = 150 :=
  ⟨tickInterval_spec.1 2 (by norm_num) (by norm_num),
    tickInterval_spec.2.1 2 10 (by norm_num) (by norm_num) (by norm_num),
    tickInterval_spec.2.2⟩

/-- C5 counterexample: the claim says `togglePlay()` has no effect when
`tokenCount = 0`, but the source (`setIsPlaying(prev => !prev)`) has no
token-count guard: in the initial state of an empty token sequence,
`togglePlay` still flips `isPlaying` from `false` to `true`. -/
theorem togglePlay_emptyTokens_cex :
    (togglePlay initState).isPlaying = true ∧ initState.isPlaying = false :=
  ⟨rfl, rfl⟩

/-- C5 amended: `togglePlay()` flips `isPlaying` unconditionally (leaving
every other field unchanged); there is no special case for
`tokenCount = 0`. -/
theorem togglePlay_spec (s : PlayState) :
    (togglePlay s).isPlaying = !s.isPlaying ∧
    (togglePlay s).speed = s.speed ∧
    (togglePlay s).currentWordIndex = s.currentWordIndex ∧
    (togglePlay s).scrollPosition = s.scrollPosition :=
  ⟨rfl, rfl, rfl, rfl⟩

/-- C10: `updateSpeed` writes exactly the given speed and modifies no other
field: play state, token index and scroll position are untouched. -/
theorem updateSpeed_frame (v : ℚ) (s : PlayState) :
    (updateSpeed v s).speed = v ∧
    (updateSpeed v s).isPlaying = s.isPlaying ∧
    (updateSpeed v s).currentWordIndex = s.currentWordIndex ∧
    (updateSpeed v s).scrollPosition = s.scrollPosition :=
  ⟨rfl, rfl, rfl, rfl⟩

/-- C7: the scroll offset is exactly
`wordPosition - containerHeight / 2 + wordHeight / 2` for all inputs (so the
computation is a pure, total function with no clamping branch), it is linear
in the word position, and it can leave the scrollable range (a concrete
input yields a negative offset). -/
theorem computeOffset_spec :
    (∀ ch tp th : ℚ, computeOffset ch tp th = tp - ch / 2 + th / 2) ∧
    (∀ a b c a2 b2 c2 : ℚ, a = a2 → b = b2 → c = c2 →
      computeOffset a b c = computeOffset a2 b2 c2) ∧
    (∀ ch tp th d : ℚ,
      computeOffset ch (tp + d) th = computeOffset ch tp th + d) ∧
    computeOffset 1000 0 20 < 0 := by
  refine ⟨fun ch tp th => rfl, ?_, fun ch tp th d => ?_,
    by norm_num [computeOffset]⟩
  · intro a b c a2 b2 c2 h1 h2 h3
    rw [h1, h2, h3]
  · unfold computeOffset
    ring

/-- Witness for C7's purity conjunct at concrete geometry: a 1000-pixel
container with the active token at top 600 and height 40 centers at offset
120. -/
theorem computeOffset_spec_witness :
    computeOffset 1000 600 40 = computeOffset 1000 600 40 ∧
    computeOffset 1000 600 40 = 600 - 1000 / 2 + 40 / 2 :=
  ⟨computeOffset_spec.2.1 1000 600 40 1000 600 40 rfl rfl rfl,
    computeOffset_spec.1 1000 600 40⟩

/-- C8: the spec's `reset()` (realized by `handleExit`, which calls the
hook's `reset` and then zeroes the word index) always yields
`isPlaying = false`, `currentWordIndex = 0` and scroll offset 0, from every
prior state. -/
theorem handleExit_spec (s : PlayState) :
    (handleExit s).isPlaying = false ∧
    (handleExit s).currentWordIndex = 0 ∧
    (handleExit s).scrollPosition = 0 :=
  ⟨rfl, rfl, rfl⟩

/-- C3 counterexample: the claim says `jumpTo` and `setSpeed` clamp their
arguments, but the source stores them directly: clicking index 100 on a
3-token sequence stores 100 (not the clamp 2), and `updateSpeed 99` stores
99, which is outside the valid speed range `[0.1, 10]`. -/
theorem jumpTo_setSpeed_no_clamp_cex :
    (handleWordClick 100 initState).currentWordIndex = 100 ∧
    ¬(handleWordClick 100 initState).currentWordIndex ≤ (3 : Int) - 1 ∧
    (updateSpeed 99 initState).speed = 99 ∧
    ¬(updateSpeed 99 initState).speed ≤ 10 := by
  refine ⟨rfl, by decide, rfl, ?_⟩
  show ¬(99 : ℚ) ≤ 10
  norm_num

/-- C3 amended: `jumpTo(index)` (`handleWordClick`) stores the argument in
`currentIndex` exactly as given and `setSpeed(v)` (`updateSpeed`) stores `v`
exactly as given; neither operation clamps or rejects out-of-range values —
range discipline comes only from the callers (word clicks pass indices of
rendered words, the speed slider is bounded to `[0.1, 10]`). -/
theorem jumpTo_setSpeed_store_exact (i : Int) (v : ℚ) (s : PlayState) :
    (handleWordClick i s).currentWordIndex = i ∧ (updateSpeed v s).speed = v :=
  ⟨rfl, rfl⟩

/-- C1: on a nonempty token sequence, every reachable state keeps
`currentWordIndex` inside `[0, tokenCount - 1]`, and a tick fired while the
index sits at `tokenCount - 1` (with playback running) turns `isPlaying`
off and leaves the index unchanged. -/
theorem currentIndex_invariant (n : Nat) (hn : 0 < n) (s : PlayState)
    (hs : Reachable n s) :
    (0 ≤ s.currentWordIndex ∧ s.currentWordIndex ≤ (n : Int) - 1) ∧
    (s.isPlaying = true → s.currentWordIndex = (n : Int) - 1 →
      (tick n s).isPlaying = false ∧
      (tick n s).currentWordIndex = s.currentWordIndex) := by
  have pause : ∀ t : PlayState, t.isPlaying = true →
      t.currentWordIndex = (n : Int) - 1 →
      (tick n t).isPlaying = false ∧
      (tick n t).currentWordIndex = t.currentWordIndex := by
    intro t hp hidx
    have hge : t.currentWordIndex ≥ (n : Int) - 1 := le_of_eq hidx.symm
    unfold tick
    rw [if_pos hge]
    simp [togglePlay, hp]
  refine ⟨?_, pause s⟩
  induction hs with
  | start => simp only [initState]; omega
  | @step t u hr hstep ih =>
    cases hstep with
    | tickStep hp =>
      unfold tick
      by_cases hc : t.currentWordIndex ≥ (n : Int) - 1
      · rw [if_pos hc]; simpa [togglePlay] using ih
      · rw [if_neg hc]; simp only []; omega
    | toggleStep => simpa [togglePlay] using ih
    | speedStep v => simpa [updateSpeed] using ih
    | exitStep => simp only [handleExit, reset]; omega
    | scrollStep ch tp th => simpa [updateScrollPosition] using ih
    | clickStep i hi => simp only [handleWordClick]; omega

/-- Witness for C1: on a 3-token sequence, after toggling play and clicking
the last word (both reachable transitions), the next tick pauses and keeps
the index at 2. -/
theorem currentIndex_invariant_witness :
    (tick 3 (handleWordClick ((2 : Nat) : Int) (togglePlay initState))).isPlaying = false ∧
    (tick 3 (handleWordClick ((2 : Nat) : Int) (togglePlay initState))).currentWordIndex =
      ((2 : Nat) : Int) := by
  have h := currentIndex_invariant 3 (by norm_num)
    (handleWordClick ((2 : Nat) : Int) (togglePlay initState))
    (Reachable.step (Reachable.step Reachable.start (Step.toggleStep initState))
      (Step.clickStep (togglePlay initState) 2 (by norm_num)))
  have h2 := h.2 rfl (by decide)
  exact ⟨h2.1, by rw [h2.2]; rfl⟩

theorem splitRuns_ne_nil (p : Char → Bool) (l : List Char) : splitRuns p l ≠ [] := by
  induction l with
  | nil => simp [splitRuns]
  | cons c cs ih =>
    unfold splitRuns
    by_cases h : p c = true
    · rw [if_pos h]
      by_cases h2 : headIsSep p cs = true
      · rw [if_pos h2]; exact ih
      · rw [if_neg h2]; simp
    · rw [if_neg h]
      cases hsr : splitRuns p cs with
      | nil => simp [consHead]
      | cons f fs => simp [consHead]

theorem splitRuns_cons_ws_eq {p : Char → Bool} {c : Char} {cs : List Char}
    (h : p c = true) :
    splitRuns p (c :: cs) =
      if headIsSep p cs = true then splitRuns p cs else [] :: splitRuns p cs := by
  conv_lhs => rw [splitRuns]
  rw [if_pos h]

theorem tokenize_cons_ws {c : Char} {cs : List Char} (h : jsWhitespace c = true) :
    tokenize (c :: cs) = tokenize cs := by
  unfold tokenize
  rw [splitRuns_cons_ws_eq h]
  by_cases h2 : headIsSep jsWhitespace cs = true
  · rw [if_pos h2]
  · rw [if_neg h2, List.filter_cons]
    simp

theorem splitRuns_cons_word {p : Char → Bool} {c : Char} {cs : List Char}
    (h : p c = false) :
    splitRuns p (c :: cs) =
      (c :: (splitRuns p cs).headI) :: (splitRuns p cs).tail := by
  conv_lhs => rw [splitRuns]
  rw [if_neg (by simp [h])]
  cases hsr : splitRuns p cs with
  | nil => exact absurd hsr (splitRuns_ne_nil p cs)
  | cons f fs => simp [consHead]

theorem splitRuns_cons_ws_struct {p : Char → Bool} :
    ∀ (cs : List Char) (c : Char), p c = true →
      (splitRuns p (c :: cs)).headI = [] ∧
      (splitRuns p (c :: cs)).tail.filter (fun w => 0 < w.length) =
        (splitRuns p cs).filter (fun w => 0 < w.length) := by
  intro cs
  induction cs with
  | nil =>
    intro c h
    rw [splitRuns_cons_ws_eq h]
    simp [headIsSep, splitRuns]
  | cons e es ih =>
    intro c h
    rw [splitRuns_cons_ws_eq h]
    by_cases he : p e = true
    · rw [if_pos (show headIsSep p (e :: es) = true from he)]
      obtain ⟨ih1, ih2⟩ := ih e he
      refine ⟨ih1, ?_⟩
      rw [ih2, splitRuns_cons_ws_eq he]
      by_cases h2 : headIsSep p es = true
      · rw [if_pos h2]
      · rw [if_neg h2, List.filter_cons]; simp
    · rw [if_neg (show ¬headIsSep p (e :: es) = true from by simp [headIsSep, he])]
      exact ⟨rfl, rfl⟩

theorem tokenize_cons_word_ws {c d : Char} {ds : List Char}
    (h : jsWhitespace c = false) (hd : jsWhitespace d = true) :
    tokenize (c :: d :: ds) = [c] :: tokenize (d :: ds) := by
  have hs := @splitRuns_cons_ws_struct jsWhitespace ds d hd
  have hw := @tokenize_cons_ws d ds hd
  unfold tokenize at hw ⊢
  rw [splitRuns_cons_word h, List.filter_cons, hs.1]
  rw [if_pos (by simp)]
  rw [hs.2, hw]

theorem tokenize_cons_word {c : Char} {cs : List Char} (h : jsWhitespace c = false) :
    tokenize (c :: cs) =
      (c :: cs.takeWhile (fun d => !jsWhitespace d)) ::
        tokenize (cs.dropWhile (fun d => !jsWhitespace d)) := by
  induction cs generalizing c with
  | nil =>
    simp [tokenize, splitRuns, consHead, h, List.filter]
  | cons d ds ih =>
    rw [List.takeWhile_cons, List.dropWhile_cons]
    by_cases hd : jsWhitespace d = true
    · simp only [hd, Bool.not_true, Bool.false_eq_true, if_false]
      exact tokenize_cons_word_ws h hd
    · have hdb : jsWhitespace d = false := by simpa using hd
      simp only [hdb, Bool.not_false, if_true]
      have hih := ih hdb
      have hw := @splitRuns_cons_word jsWhitespace c (d :: ds) h
      have hwd := @splitRuns_cons_word jsWhitespace d ds hdb
      unfold tokenize at hih ⊢
      rw [hw, hwd, List.filter_cons]
      rw [if_pos (by simp)]
      rw [hwd, List.filter_cons] at hih
      rw [if_pos (by simp)] at hih
      obtain ⟨hA, hB⟩ := (List.cons.injEq _ _ _ _).mp hih
      simp only [List.headI_cons, List.tail_cons]
      rw [hA, hB]

theorem tokenize_dropWhile_ws (s : List Char) :
    tokenize (s.dropWhile jsWhitespace) = tokenize s := by
  induction s with
  | nil => rfl
  | cons c cs ih =>
    rw [List.dropWhile_cons]
    by_cases h : jsWhitespace c = true
    · rw [if_pos h, ih, tokenize_cons_ws h]
    · rw [if_neg h]

theorem head_dropWhile_false (p : Char → Bool) :
    ∀ (l : List Char) (d : Char) (ds : List Char),
      l.dropWhile p = d :: ds → p d = false := by
  intro l
  induction l with
  | nil => intro d ds h; simp [List.dropWhile] at h
  | cons c cs ih =>
    intro d ds h
    rw [List.dropWhile_cons] at h
    by_cases hc : p c = true
    · rw [if_pos hc] at h; exact ih d ds h
    · rw [if_neg hc] at h
      cases h
      simpa using hc

theorem flatten_filter_headI (l : List (List Char)) (hl : l ≠ []) :
    l.headI ++ (l.tail.filter (fun w => 0 < w.length)).flatten =
      (l.filter (fun w => 0 < w.length)).flatten := by
  cases l with
  | nil => exact absurd rfl hl
  | cons f fs =>
    rw [List.filter_cons]
    by_cases hf : 0 < f.length
    · simp [hf]
    · have hfe : f = [] := by
        cases f with
        | nil => rfl
        | cons a as => simp at hf
      subst hfe
      simp

theorem tokenize_flatten (s : List Char) :
    (tokenize s).flatten = s.filter (fun c => !jsWhitespace c) := by
  induction s with
  | nil => rfl
  | cons c cs ih =>
    by_cases h : jsWhitespace c = true
    · rw [tokenize_cons_ws h, List.filter_cons]
      simp only [h, Bool.not_true, Bool.false_eq_true, if_false]
      exact ih
    · have hb : jsWhitespace c = false := by simpa using h
      unfold tokenize
      rw [splitRuns_cons_word hb, List.filter_cons]
      rw [if_pos (by simp)]
      rw [List.flatten_cons, List.cons_append,
        flatten_filter_headI (splitRuns jsWhitespace cs) (splitRuns_ne_nil _ _),
        List.filter_cons]
      simp only [hb, Bool.not_false, if_true]
      show c :: (tokenize cs).flatten = _
      rw [ih]

theorem normAux_cons_ws {c : Char} {cs : List Char} (h : jsWhitespace c = true)
    (pending : Bool) : normAux pending (c :: cs) = normAux true cs := by
  rw [normAux.eq_2, if_pos h]

theorem normAux_cons_word_pending {c : Char} {cs : List Char}
    (h : jsWhitespace c = false) :
    normAux true (c :: cs) = ' ' :: c :: normAux false cs := by
  rw [normAux.eq_2, if_neg (by simp [h]), if_pos rfl]

theorem normAux_cons_word_clear {c : Char} {cs : List Char}
    (h : jsWhitespace c = false) :
    normAux false (c :: cs) = c :: normAux false cs := by
  rw [normAux.eq_2, if_neg (by simp [h]), if_neg (by simp)]

theorem normAux_true_dropWhile (l : List Char) :
    normAux true (l.dropWhile jsWhitespace) = normAux true l := by
  induction l with
  | nil => rfl
  | cons c cs ih =>
    rw [List.dropWhile_cons]
    by_cases h : jsWhitespace c = true
    · rw [if_pos h, ih, normAux_cons_ws h]
    · rw [if_neg h]

theorem normAux_word_append (w rest : List Char)
    (hw : ∀ c ∈ w, jsWhitespace c = false) :
    normAux false (w ++ rest) = w ++ normAux false rest := by
  induction w with
  | nil => rfl
  | cons c cs ih =>
    have hc : jsWhitespace c = false := hw c (List.mem_cons_self c cs)
    rw [List.cons_append, normAux_cons_word_clear hc,
      ih (fun x hx => hw x (List.mem_cons_of_mem c hx)), List.cons_append]

theorem intercalate_singleton_frag (x : List Char) :
    List.intercalate [' '] [x] = x := by
  simp [List.intercalate]

theorem intercalate_cons_of_ne_nil {xs : List (List Char)} (h : xs ≠ [])
    (x : List Char) :
    List.intercalate [' '] (x :: xs) = x ++ ' ' :: List.intercalate [' '] xs := by
  cases xs with
  | nil => exact absurd rfl h
  | cons y ys => simp [List.intercalate, List.intersperse_cons_cons]

theorem intercalate_tokenize (s : List Char) :
    List.intercalate [' '] (tokenize s) = normalizeWs s := by
  suffices key : ∀ (n : Nat) (t : List Char), t.length ≤ n →
      t.dropWhile jsWhitespace = t →
      List.intercalate [' '] (tokenize t) = normAux false t by
    unfold normalizeWs
    rw [← tokenize_dropWhile_ws s]
    exact key (s.dropWhile jsWhitespace).length _ le_rfl
      (List.dropWhile_idempotent _ _)
  intro n
  induction n with
  | zero =>
    intro t hlen _
    have ht : t = [] := List.length_eq_zero.mp (Nat.le_zero.mp hlen)
    subst ht
    rfl
  | succ n ih =>
    intro t hlen hdrop
    cases t with
    | nil => rfl
    | cons c cs =>
      by_cases hc : jsWhitespace c = true
      · exfalso
        rw [List.dropWhile_cons, if_pos hc] at hdrop
        have hle := (show List.Sublist (List.dropWhile jsWhitespace cs) cs from List.dropWhile_sublist _).length_le
        rw [hdrop] at hle
        simp at hle
      · have hcb : jsWhitespace c = false := by simpa using hc
        rw [tokenize_cons_word hcb, normAux_cons_word_clear hcb]
        have hsplit : cs = cs.takeWhile (fun d => !jsWhitespace d) ++
            cs.dropWhile (fun d => !jsWhitespace d) :=
          (List.takeWhile_append_dropWhile _ _).symm
        have htw : ∀ x ∈ cs.takeWhile (fun d => !jsWhitespace d),
            jsWhitespace x = false := by
          intro x hx
          simpa using List.mem_takeWhile_imp hx
        conv_rhs => rw [hsplit]
        rw [normAux_word_append _ _ htw]
        cases hdw : cs.dropWhile (fun d => !jsWhitespace d) with
        | nil =>
          rw [show tokenize ([] : List Char) = [] from rfl,
            intercalate_singleton_frag]
          simp [normAux]
        | cons d ds =>
          have hd : jsWhitespace d = true := by
            simpa using head_dropWhile_false (fun d => !jsWhitespace d) cs d ds hdw
          rw [tokenize_cons_ws hd, ← tokenize_dropWhile_ws ds,
            normAux_cons_ws hd, ← normAux_true_dropWhile ds]
          cases hr : ds.dropWhile jsWhitespace with
          | nil =>
            rw [show tokenize ([] : List Char) = [] from rfl,
              intercalate_singleton_frag]
            simp [normAux]
          | cons e es =>
            have he : jsWhitespace e = false :=
              head_dropWhile_false jsWhitespace ds e es hr
            have hne : tokenize (e :: es) ≠ [] := by
              rw [tokenize_cons_word he]
              simp
            rw [normAux_cons_word_pending he, intercalate_cons_of_ne_nil hne]
            have l1 : (e :: es).length ≤ ds.length := by
              rw [← hr]
              exact (List.dropWhile_sublist _).length_le
            have l2 : (d :: ds).length ≤ cs.length := by
              rw [← hdw]
              exact (List.dropWhile_sublist _).length_le
            have hlen2 : (e :: es).length ≤ n := by
              simp only [List.length_cons] at l1 l2 hlen ⊢
              omega
            have hidem : (e :: es).dropWhile jsWhitespace = e :: es := by
              rw [← hr]
              exact List.dropWhile_idempotent _ _
            rw [ih (e :: es) hlen2 hidem, normAux_cons_word_clear he]
            simp

/-- C6: `tokenize` yields only non-empty tokens (empty fragments of the
split are discarded); concatenating the tokens recovers exactly the
non-whitespace characters of the script in source order (so the split is on
whitespace runs and preserves order); and joining the tokens with single
spaces reconstructs the script's whitespace-normalized form. -/
theorem tokenize_spec (s : List Char) :
    (∀ w ∈ tokenize s, 0 < w.length) ∧
    (tokenize s).flatten = s.filter (fun c => !jsWhitespace c) ∧
    List.intercalate [' '] (tokenize s) = normalizeWs s := by
  refine ⟨?_, tokenize_flatten s, intercalate_tokenize s⟩
  intro w hw
  unfold tokenize at hw
  simpa using List.of_mem_filter hw

/-- Witness for C6 on the concrete script made of `a`, two spaces, `b`. -/
theorem tokenize_spec_witness :
    0 < (['a'] : List Char).length ∧
    (tokenize ['a', ' ', ' ', 'b']).flatten = ['a', 'b'] ∧
    List.intercalate [' '] (tokenize ['a', ' ', ' ', 'b']) = ['a', ' ', 'b'] := by
  have h := tokenize_spec ['a', ' ', ' ', 'b']
  refine ⟨h.1 ['a'] (by decide), ?_, ?_⟩
  · rw [h.2.1]; decide
  · rw [h.2.2]; decide

/-- C4 counterexample: the claim says a whitespace-only script triggers the
redirect, but the guard is `if (!script)` and a whitespace-only string is
truthy: the single-space script is all whitespace, yet the redirect does not
fire; the session instead proceeds with an empty token sequence. -/
theorem scriptGuard_ws_cex :
    ([' '] : List Char).all jsWhitespace = true ∧
    scriptGuardRedirects [' '] = false ∧
    tokenize [' '] = [] := by decide

/-- C4 amended: the redirect to the origin route fires exactly on the empty
(falsy) script; a whitespace-only script passes the guard without redirect
and tokenizes to the empty sequence, so playback simply has no tokens. -/
theorem scriptGuard_spec :
    (∀ script : List Char, scriptGuardRedirects script = true ↔ script = []) ∧
    (∀ script : List Char, script.all jsWhitespace = true →
      tokenize script = []) := by
  constructor
  · intro script
    cases script <;> simp [scriptGuardRedirects]
  · intro script hall
    induction script with
    | nil => rfl
    | cons c cs ih =>
      simp only [List.all_cons, Bool.and_eq_true] at hall
      rw [tokenize_cons_ws hall.1]
      exact ih hall.2

/-- Witness for C4's amended claim at concrete scripts. -/
theorem scriptGuard_spec_witness :
    scriptGuardRedirects [] = true ∧ tokenize [' ', '\t'] = [] :=
  ⟨(scriptGuard_spec.1 []).mpr rfl, scriptGuard_spec.2 [' ', '\t'] (by decide)⟩

/-- C9: with `d` the Euclidean distance of the pointer from the play
control's center (`d ≥ 0` and `d² = Δx² + Δy²`), the transform is the exact
identity `(0, 0, 1)` whenever `d ≥ 150`; for `d < 150` the displacement is
exactly `(Δx, Δy) · ((150 − d)/150) · 0.3` with scale
`1 + ((150 − d)/150) · 0.1`; the scale is antitone in `d` on `[0, 150)` and
attains its maximum `1 + 0.1` at `d = 0`, so displacement and scale approach
their maxima as `d → 0`. -/
theorem magnetTransform_spec :
    (∀ dx dy d : ℚ, 0 ≤ d → d * d = dx * dx + dy * dy → 150 ≤ d →
      magnetTransform dx dy d = (0, 0, 1)) ∧
    (∀ dx dy d : ℚ, 0 ≤ d → d * d = dx * dx + dy * dy → d < 150 →
      magnetTransform dx dy d =
        (dx * ((150 - d) / 150) * (3 / 10), dy * ((150 - d) / 150) * (3 / 10),
          1 + ((150 - d) / 150) * (1 / 10))) ∧
    (∀ dx dy d1 d2 : ℚ, 0 ≤ d1 → d1 ≤ d2 → d2 < 150 →
      (magnetTransform dx dy d2).2.2 ≤ (magnetTransform dx dy d1).2.2) ∧
    (∀ dx dy : ℚ, (magnetTransform dx dy 0).2.2 = 1 + 1 / 10) := by
  refine ⟨?_, ?_, ?_, ?_⟩
  · intro dx dy d _ _ h150
    unfold magnetTransform
    rw [if_neg (not_lt.mpr h150)]
  · intro dx dy d _ _ hlt
    unfold magnetTransform
    rw [if_pos hlt]
  · intro dx dy d1 d2 _ h12 h2
    have h1 : d1 < 150 := lt_of_le_of_lt h12 h2
    unfold magnetTransform
    rw [if_pos h1, if_pos h2]
    show 1 + (150 - d2) / 150 * (1 / 10) ≤ 1 + (150 - d1) / 150 * (1 / 10)
    have hq : (150 - d2) / 150 * (1 / 10) ≤ (150 - d1) / 150 * (1 / 10) := by
      rw [div_mul_eq_mul_div, div_mul_eq_mul_div, div_le_div_iff₀ (by norm_num) (by norm_num)]
      nlinarith
    linarith
  · intro dx dy
    unfold magnetTransform
    rw [if_pos (by norm_num)]
    norm_num

/-- Witness for C9 at the concrete pointer offsets `(90, 120)` (distance
exactly 150) and `(3, 4)` (distance 5). -/
theorem magnetTransform_spec_witness :
    magnetTransform 90 120 150 = (0, 0, 1) ∧
    magnetTransform 3 4 5 =
      (3 * ((150 - 5) / 150) * (3 / 10), 4 * ((150 - 5) / 150) * (3 / 10),
        1 + ((150 - 5) / 150) * (1 / 10)) :=
  ⟨magnetTransform_spec.1 90 120 150 (by norm_num) (by norm_num) (by norm_num),
    magnetTransform_spec.2.1 3 4 5 (by norm_num) (by norm_num) (by norm_num)⟩

end Teleprompter
